import Mathlib

/-!
Verification development for the EpochCore ARCPI swarm coherence and
consensus engine (`src/EpochCore_ARCPI/epoch1_master_pack.py`).

Finite IEEE-double arithmetic on the values actually reached by the
program is modelled exactly over `ℚ`; the constant `PHI` is the exact
rational value of the double literal used by the source.  Node matrices
are modelled as ordered lists of `SwarmNode`; the source stores them in
an insertion-ordered dict keyed by `id`, which coincides with the list
order whenever identities are unique (the hypothesis of the graph
claims).  Non-finite floats (NaN, infinities), needed for the
error-handling claim only, are modelled by the separate type `EFloat`.
-/

namespace Epoch1

/-- The golden-ratio constant `PHI = 1.618033988749895` from the source. -/
def PHI : ℚ := 1618033988749895 / 1000000000000000

/-- `NodeLayer` enum from the source. -/
inductive NodeLayer where
  | infrastructure
  | application
  | intelligence
  | orchestration
  | quantum
deriving DecidableEq, Repr

/-- `SwarmNode` dataclass: id, name, layer, weight, coherence
(default 1.0) and entanglement list (default empty). The `state` dict is
never read or written by the engines and is omitted. -/
structure SwarmNode where
  id : String
  name : String
  layer : NodeLayer
  weight : ℚ
  coherence : ℚ := 1
  entanglement : List String := []
deriving DecidableEq, Repr

/-- Placeholder node used as the (never-consulted) default of total
list-indexing operations. -/
def dummyNode : SwarmNode :=
  { id := "", name := "", layer := NodeLayer.infrastructure, weight := 0 }

instance : Inhabited SwarmNode := ⟨dummyNode⟩

/-- `SwarmNode.phi_weight` property: `weight * PHI`. -/
def phi_weight (n : SwarmNode) : ℚ := n.weight * PHI

/-- `SyncScale` enum (MICRO, MESO, MACRO, META in declaration order). -/
inductive SyncScale where
  | micro
  | meso
  | macroScale
  | metaScale
deriving DecidableEq, Repr

/-- The numeric multiplier paired with each scale:
`{1.0, PHI, PHI**2, PHI**3}`. -/
def SyncScale.multiplier : SyncScale → ℚ
  | .micro => 1
  | .meso => PHI
  | .macroScale => PHI ^ 2
  | .metaScale => PHI ^ 3

/-- The name string paired with each scale. -/
def SyncScale.scale_name : SyncScale → String
  | .micro => "micro"
  | .meso => "meso"
  | .macroScale => "macro"
  | .metaScale => "meta"

/-- Iteration order of `for scale in SyncScale` (declaration order). -/
def allScales : List SyncScale :=
  [SyncScale.micro, SyncScale.meso, SyncScale.macroScale, SyncScale.metaScale]

/-- `FlashSyncEngine.calculate_coherence`:
`total / max_possible if max_possible > 0 else 0` with
`total = Σ n.coherence * n.phi_weight` and `max_possible = Σ n.phi_weight`. -/
def calculate_coherence (nodes : List SwarmNode) : ℚ :=
  let total := (nodes.map (fun n => n.coherence * phi_weight n)).sum
  let max_possible := (nodes.map (fun n => phi_weight n)).sum
  if max_possible > 0 then total / max_possible else 0

/-- The per-node update performed by `cascade_sync`:
`coherence = min(1.0, coherence * (1 + 0.1 * multiplier))`. -/
def syncNode (m : ℚ) (n : SwarmNode) : SwarmNode :=
  { n with coherence := min 1 (n.coherence * (1 + (1 / 10) * m)) }

/-- `FlashSyncEngine.cascade_sync`: updates every node at the given
scale and returns the updated matrix together with the returned
`calculate_coherence()` value. (`sync_state` is set to a transient
string and restored to `"idle"` before returning; it carries no data.) -/
def cascade_sync (scale : SyncScale) (nodes : List SwarmNode) :
    List SwarmNode × ℚ :=
  let nodes2 := nodes.map (syncNode scale.multiplier)
  (nodes2, calculate_coherence nodes2)

/-- `FlashSyncEngine.full_flash_sync`: runs `cascade_sync` for every
scale in declaration order, collecting `(scale_name, coherence)` pairs
in iteration order; returns the collected results and the final matrix. -/
def full_flash_sync (nodes : List SwarmNode) :
    List (String × ℚ) × List SwarmNode :=
  allScales.foldl
    (fun acc s =>
      let r := cascade_sync s acc.2
      (acc.1 ++ [(s.scale_name, r.2)], r.1))
    ([], nodes)

/-- `ConsensusEngine.phi_weighted`:
`total / weights if weights > 0 else 0` with
`total = Σ v * PHI**i (over enumerate(values))` and
`weights = Σ PHI**i (over range(len(values)))`. -/
def phi_weighted (values : List ℚ) : ℚ :=
  let total := (values.enum.map (fun p => p.2 * PHI ^ p.1)).sum
  let weights := ((List.range values.length).map (fun i => PHI ^ i)).sum
  if weights > 0 then total / weights else 0

/-- The formula the specification gives for the scale-weighted average:
`Σ(v_i * PHI^i) / Σ(PHI^i)` over `i in [0, n)`, stated with a plain
(unguarded) division; the empty sequence yields `0` by the `0/0 = 0`
convention of `ℚ`. -/
def scale_weighted_average_spec (values : List ℚ) : ℚ :=
  (values.enum.map (fun p => p.2 * PHI ^ p.1)).sum /
    ((List.range values.length).map (fun i => PHI ^ i)).sum

/-- Result record of `ConsensusEngine.quantum_vote`. -/
structure VoteResult where
  approved : Bool
  yes_weight : ℚ
  no_weight : ℚ
  algorithm : String
deriving DecidableEq, Repr

/-- `ConsensusEngine.quantum_vote`, parametrised by the process-stable
string hash (Python's `hash`; any deterministic hash satisfies the
spec's contract) and by the stringified proposal.  Each node votes yes
iff `hash(proposal + id)` is even; a quantum-layer node's vote carries
`phi_weight`, any other node's its plain `weight`. -/
def quantum_vote (hashFn : String → ℤ) (proposal : String)
    (nodes : List SwarmNode) : VoteResult :=
  let votes := nodes.map (fun n =>
    (decide (hashFn (proposal ++ n.id) % 2 = 0),
     if n.layer = NodeLayer.quantum then phi_weight n else n.weight))
  let yes_weight := ((votes.filter (fun p => p.1)).map (fun p => p.2)).sum
  let no_weight := ((votes.filter (fun p => !p.1)).map (fun p => p.2)).sum
  { approved := decide (yes_weight > no_weight)
    yes_weight := yes_weight
    no_weight := no_weight
    algorithm := "quantum_vote" }

/-- One step of the quantum-clique loop of
`FlashSyncEngine._build_entanglement`: append `other.id` to the
accumulated entanglement list iff `other` is quantum-layer, is not the
node itself, and is not already present. -/
def cliqueStep (nid : String) (acc : List String) (other : SwarmNode) :
    List String :=
  if other.layer = NodeLayer.quantum ∧ other.id ≠ nid ∧ other.id ∉ acc
  then acc ++ [other.id] else acc

/-- The ring-adjacency appends of `_build_entanglement` for the node at
position `i`: predecessor id when `i > 0`, successor id when
`i < len(node_ids) - 1`. -/
def ringAppend (nodes : List SwarmNode) (i : ℕ) (ent : List String) :
    List String :=
  let ids := nodes.map SwarmNode.id
  let e1 := if 0 < i then ent ++ [ids.getD (i - 1) ""] else ent
  if i < nodes.length - 1 then e1 ++ [ids.getD (i + 1) ""] else e1

/-- The full `_build_entanglement` body for the node at position `i`:
ring appends followed, for quantum-layer nodes, by the deduplicated
quantum-clique appends over the whole matrix. -/
def entangleNode (nodes : List SwarmNode) (i : ℕ) (node : SwarmNode) :
    SwarmNode :=
  let e2 := ringAppend nodes i node.entanglement
  { node with entanglement :=
      if node.layer = NodeLayer.quantum
      then nodes.foldl (cliqueStep node.id) e2 else e2 }

/-- `FlashSyncEngine._build_entanglement` over the whole matrix.  The
inner quantum loop of the source reads only the `id` and `layer` fields
of the other nodes, which the procedure never changes, so the in-place
sequential update of the source equals this positional map. -/
def build_entanglement (nodes : List SwarmNode) : List SwarmNode :=
  nodes.enum.map (fun p => entangleNode nodes p.1 p.2)

/-- Boolean check that every node of a matrix has coherence exactly 1. -/
def allOnes (l : List SwarmNode) : Bool := l.all (fun n => n.coherence == 1)

/-! ### Basic facts about the constants -/

lemma PHI_pos : 0 < PHI := by norm_num [PHI]

lemma one_lt_PHI : 1 < PHI := by norm_num [PHI]

lemma multiplier_pos (s : SyncScale) : 0 < s.multiplier := by
  have h := PHI_pos
  cases s <;> simp only [SyncScale.multiplier] <;> positivity

/-! ### Per-node update lemmas -/

lemma syncNode_coherence_le_one (m : ℚ) (n : SwarmNode) :
    (syncNode m n).coherence ≤ 1 := min_le_left _ _

lemma syncNode_coherence_mono (m : ℚ) (hm : 0 < m) (n : SwarmNode)
    (h0 : 0 ≤ n.coherence) (h1 : n.coherence ≤ 1) :
    n.coherence ≤ (syncNode m n).coherence := by
  refine le_min h1 ?_
  have h2 : (1 : ℚ) ≤ 1 + (1 / 10) * m := by nlinarith
  exact le_mul_of_one_le_right h0 h2

lemma syncNode_coherence_nonneg (m : ℚ) (hm : 0 < m) (n : SwarmNode)
    (h0 : 0 ≤ n.coherence) : 0 ≤ (syncNode m n).coherence := by
  have h2 : (0 : ℚ) ≤ 1 + (1 / 10) * m := by nlinarith
  exact le_min (by norm_num) (mul_nonneg h0 h2)

lemma syncNode_coherence_pos (m : ℚ) (hm : 0 < m) (n : SwarmNode)
    (h0 : 0 < n.coherence) : 0 < (syncNode m n).coherence := by
  have h2 : (0 : ℚ) < 1 + (1 / 10) * m := by nlinarith
  exact lt_min (by norm_num) (mul_pos h0 h2)

/-! ### C1: cascade_sync never decreases coherence and keeps it at most 1 -/

/-- C1: for every node matrix whose nodes all have coherence in `[0, 1]`,
after a single `cascade_sync` at any scale no node's coherence has
decreased and every node's coherence is at most `1`; every scale's
multiplier is strictly positive. -/
theorem C1_cascade_sync_coherence_monotone (scale : SyncScale)
    (nodes : List SwarmNode)
    (h : ∀ n ∈ nodes, 0 ≤ n.coherence ∧ n.coherence ≤ 1) :
    0 < scale.multiplier ∧
    List.Forall₂
      (fun old new => old.coherence ≤ new.coherence ∧ new.coherence ≤ 1)
      nodes (cascade_sync scale nodes).1 := by
  refine ⟨multiplier_pos scale, ?_⟩
  show List.Forall₂ _ nodes (nodes.map (syncNode scale.multiplier))
  rw [List.forall₂_map_right_iff, List.forall₂_same]
  intro n hn
  exact ⟨syncNode_coherence_mono _ (multiplier_pos scale) n (h n hn).1 (h n hn).2,
    syncNode_coherence_le_one _ n⟩

/-- One-node matrix (coherence 1/2) used to instantiate C1. -/
def wm1 : List SwarmNode :=
  [{ id := "A", name := "Analyzer", layer := NodeLayer.intelligence,
     weight := 1, coherence := 1 / 2 }]

theorem C1_cascade_sync_coherence_monotone_witness :
    ((0 : ℚ) ≤ 1 / 2 ∧ (1 / 2 : ℚ) ≤ 1) ∧
    0 < SyncScale.micro.multiplier ∧
    List.Forall₂
      (fun old new => old.coherence ≤ new.coherence ∧ new.coherence ≤ 1)
      wm1 (cascade_sync SyncScale.micro wm1).1 :=
  ⟨by norm_num,
    C1_cascade_sync_coherence_monotone SyncScale.micro wm1
      (by intro n hn; simp only [wm1, List.mem_singleton] at hn; subst hn; norm_num)⟩

/-! ### C2: the swarm-coherence aggregate -/

/-- Amended C2: `calculate_coherence` equals the `phi_weight`-weighted
average of the coherences whenever the denominator `Σ phi_weight` is
strictly positive, and equals `0` whenever that denominator is `≤ 0`
(in particular for the empty matrix); when every node's coherence is `1`
and the denominator is positive the result is exactly `1`. -/
theorem C2_calculate_coherence_weighted_average (nodes : List SwarmNode) :
    (0 < (nodes.map (fun n => phi_weight n)).sum →
      calculate_coherence nodes =
        (nodes.map (fun n => n.coherence * phi_weight n)).sum /
          (nodes.map (fun n => phi_weight n)).sum) ∧
    ((nodes.map (fun n => phi_weight n)).sum ≤ 0 →
      calculate_coherence nodes = 0) ∧
    ((∀ n ∈ nodes, n.coherence = 1) →
      0 < (nodes.map (fun n => phi_weight n)).sum →
      calculate_coherence nodes = 1) := by
  refine ⟨?_, ?_, ?_⟩
  · intro hpos
    unfold calculate_coherence
    rw [if_pos hpos]
  · intro hle
    unfold calculate_coherence
    rw [if_neg (not_lt.mpr hle)]
  · intro hall hpos
    unfold calculate_coherence
    rw [if_pos hpos]
    have hmaps : nodes.map (fun n => n.coherence * phi_weight n) =
        nodes.map (fun n => phi_weight n) :=
      List.map_congr_left (fun n hn => by rw [hall n hn, one_mul])
    rw [hmaps, div_self (ne_of_gt hpos)]

/-- One-node matrix with a negative weight: `calculate_coherence`
returns `0` there although the claimed weighted average is `1` and every
coherence is `1`. -/
def cm2 : List SwarmNode :=
  [{ id := "A", name := "Analyzer", layer := NodeLayer.intelligence,
     weight := -1 }]

theorem C2_calculate_coherence_weighted_average_counterexample :
    allOnes cm2 = true ∧
    calculate_coherence cm2 = 0 ∧
    (cm2.map (fun n => n.coherence * phi_weight n)).sum /
      (cm2.map (fun n => phi_weight n)).sum = 1 ∧
    ¬ ((1 : ℚ) - calculate_coherence cm2 ≤ 1 / 1000000000) := by
  refine ⟨by decide, ?_, ?_, ?_⟩
  · norm_num [calculate_coherence, cm2, phi_weight, PHI]
  · norm_num [cm2, phi_weight, PHI]
  · norm_num [calculate_coherence, cm2, phi_weight, PHI]

/-- One-node matrix with weight 1 and coherence 1 used to instantiate C2. -/
def wm2 : List SwarmNode :=
  [{ id := "A", name := "Analyzer", layer := NodeLayer.intelligence,
     weight := 1 }]

theorem C2_calculate_coherence_weighted_average_witness :
    0 < (wm2.map (fun n => phi_weight n)).sum ∧ calculate_coherence wm2 = 1 := by
  have hpos : 0 < (wm2.map (fun n => phi_weight n)).sum := by
    norm_num [wm2, phi_weight, PHI]
  exact ⟨hpos, (C2_calculate_coherence_weighted_average wm2).2.2
    (by intro n hn; simp only [wm2, List.mem_singleton] at hn; subst hn; rfl) hpos⟩

/-! ### C3: the scale-weighted (phi-weighted) average -/

lemma weights_sum_pos (values : List ℚ) (h : values ≠ []) :
    0 < ((List.range values.length).map (fun i => PHI ^ i)).sum := by
  apply List.sum_pos
  · intro x hx
    rcases List.mem_map.mp hx with ⟨i, _, rfl⟩
    exact pow_pos PHI_pos i
  · intro hnil
    rw [List.map_eq_nil_iff, List.range_eq_nil] at hnil
    exact h (List.length_eq_zero.mp hnil)

/-- C3: `phi_weighted` computes `Σ(v_i * PHI^i) / Σ(PHI^i)` over
`i in [0, n)`; the empty sequence yields `0`, a singleton `[x]` yields
`x`, and a pair `[a, b]` yields `(a + b * PHI) / (1 + PHI)`. -/
theorem C3_phi_weighted_formula :
    (∀ values : List ℚ,
      phi_weighted values = scale_weighted_average_spec values) ∧
    phi_weighted [] = 0 ∧
    (∀ x : ℚ, phi_weighted [x] = x) ∧
    (∀ a b : ℚ, phi_weighted [a, b] = (a + b * PHI) / (1 + PHI)) := by
  have hmain : ∀ values : List ℚ,
      phi_weighted values = scale_weighted_average_spec values := by
    intro values
    unfold phi_weighted scale_weighted_average_spec
    rcases eq_or_ne values [] with rfl | h
    · simp
    · rw [if_pos (weights_sum_pos values h)]
  refine ⟨hmain, by simp [phi_weighted], ?_, ?_⟩
  · intro x
    rw [hmain]
    unfold scale_weighted_average_spec
    simp [List.enum, List.enumFrom, List.range_succ]
  · intro a b
    rw [hmain]
    unfold scale_weighted_average_spec
    simp [List.enum, List.enumFrom, List.range_succ]

/-! ### C4: the quantum-weighted vote -/

/-- C4: `quantum_vote` weighs each yes/no vote by `weight * PHI` for
quantum-layer nodes and by the plain `weight` otherwise; `approved` is
true iff the yes-weight strictly exceeds the no-weight, and a tie is not
approved. -/
theorem C4_quantum_vote_weights_and_tie (hashFn : String → ℤ)
    (proposal : String) (nodes : List SwarmNode) :
    (quantum_vote hashFn proposal nodes).yes_weight =
      ((nodes.filter
          (fun n => decide (hashFn (proposal ++ n.id) % 2 = 0))).map
        (fun n => if n.layer = NodeLayer.quantum then n.weight * PHI
          else n.weight)).sum ∧
    (quantum_vote hashFn proposal nodes).no_weight =
      ((nodes.filter
          (fun n => !decide (hashFn (proposal ++ n.id) % 2 = 0))).map
        (fun n => if n.layer = NodeLayer.quantum then n.weight * PHI
          else n.weight)).sum ∧
    ((quantum_vote hashFn proposal nodes).approved = true ↔
      (quantum_vote hashFn proposal nodes).no_weight <
        (quantum_vote hashFn proposal nodes).yes_weight) ∧
    ((quantum_vote hashFn proposal nodes).yes_weight =
        (quantum_vote hashFn proposal nodes).no_weight →
      (quantum_vote hashFn proposal nodes).approved = false) := by
  have h1 : (quantum_vote hashFn proposal nodes).yes_weight =
      ((nodes.filter
          (fun n => decide (hashFn (proposal ++ n.id) % 2 = 0))).map
        (fun n => if n.layer = NodeLayer.quantum then n.weight * PHI
          else n.weight)).sum := by
    simp [quantum_vote, List.filter_map, List.map_map, Function.comp_def,
      phi_weight]
  have h2 : (quantum_vote hashFn proposal nodes).no_weight =
      ((nodes.filter
          (fun n => !decide (hashFn (proposal ++ n.id) % 2 = 0))).map
        (fun n => if n.layer = NodeLayer.quantum then n.weight * PHI
          else n.weight)).sum := by
    simp [quantum_vote, List.filter_map, List.map_map, Function.comp_def,
      phi_weight]
  have h3 : (quantum_vote hashFn proposal nodes).approved = true ↔
      (quantum_vote hashFn proposal nodes).no_weight <
        (quantum_vote hashFn proposal nodes).yes_weight := by
    simp [quantum_vote]
  refine ⟨h1, h2, h3, ?_⟩
  intro htie
  rw [← Bool.not_eq_true, h3, htie]
  exact lt_irrefl _

/-- Hash used to instantiate C4 at a tie: id "A" hashes even (yes),
id "B" hashes odd (no). -/
def tieHash : String → ℤ := fun s => if s = "pA" then 0 else 1

/-- Two equal-weight non-quantum nodes voting oppositely under
`tieHash`. -/
def wm4 : List SwarmNode :=
  [{ id := "A", name := "Alpha", layer := NodeLayer.infrastructure,
     weight := 1 },
   { id := "B", name := "Beta", layer := NodeLayer.infrastructure,
     weight := 1 }]

theorem C4_quantum_vote_weights_and_tie_witness :
    (quantum_vote tieHash "p" wm4).yes_weight =
      (quantum_vote tieHash "p" wm4).no_weight ∧
    (quantum_vote tieHash "p" wm4).approved = false := by
  have htie : (quantum_vote tieHash "p" wm4).yes_weight =
      (quantum_vote tieHash "p" wm4).no_weight := by
    simp [quantum_vote, wm4, tieHash, List.filter]
  exact ⟨htie,
    (C4_quantum_vote_weights_and_tie tieHash "p" wm4).2.2.2 htie⟩

/-! ### C10: cascade_sync touches only the coherence field -/

/-- C10: a `cascade_sync` call at any scale leaves every node's `id`,
`name`, `layer`, `weight` and `entanglement` unchanged (position by
position); only `coherence` (and the transient engine `sync_state`
string) changes. -/
theorem C10_cascade_sync_frame (scale : SyncScale) (nodes : List SwarmNode) :
    (cascade_sync scale nodes).1.map SwarmNode.id = nodes.map SwarmNode.id ∧
    (cascade_sync scale nodes).1.map SwarmNode.name =
      nodes.map SwarmNode.name ∧
    (cascade_sync scale nodes).1.map SwarmNode.layer =
      nodes.map SwarmNode.layer ∧
    (cascade_sync scale nodes).1.map SwarmNode.weight =
      nodes.map SwarmNode.weight ∧
    (cascade_sync scale nodes).1.map SwarmNode.entanglement =
      nodes.map SwarmNode.entanglement := by
  refine ⟨?_, ?_, ?_, ?_, ?_⟩ <;>
    simp [cascade_sync, List.map_map, syncNode, Function.comp_def]

/-! ### Entanglement-graph lemmas -/

lemma mem_cliqueFold (l : List SwarmNode) (nid x : String) :
    ∀ init : List String,
      x ∈ l.foldl (cliqueStep nid) init ↔
        (x ∈ init ∨
          ∃ o ∈ l, o.layer = NodeLayer.quantum ∧ o.id ≠ nid ∧ o.id = x) := by
  induction l with
  | nil => simp
  | cons o rest ih =>
    intro init
    rw [List.foldl_cons, ih]
    have hstep : x ∈ cliqueStep nid init o ↔
        (x ∈ init ∨
          (o.layer = NodeLayer.quantum ∧ o.id ≠ nid ∧ o.id = x)) := by
      unfold cliqueStep
      by_cases h : o.layer = NodeLayer.quantum ∧ o.id ≠ nid ∧ o.id ∉ init
      · rw [if_pos h]
        simp only [List.mem_append, List.mem_singleton]
        constructor
        · rintro (hx | rfl)
          · exact Or.inl hx
          · exact Or.inr ⟨h.1, h.2.1, rfl⟩
        · rintro (hx | ⟨_, _, rfl⟩)
          · exact Or.inl hx
          · exact Or.inr rfl
      · rw [if_neg h]
        constructor
        · exact Or.inl
        · rintro (hx | ⟨hq, hne, rfl⟩)
          · exact hx
          · by_cases hin : o.id ∈ init
            · exact hin
            · exact absurd ⟨hq, hne, hin⟩ h
    rw [hstep]
    simp only [List.mem_cons]
    constructor
    · rintro ((hx | ho) | ⟨o', ho', hP⟩)
      · exact Or.inl hx
      · exact Or.inr ⟨o, Or.inl rfl, ho⟩
      · exact Or.inr ⟨o', Or.inr ho', hP⟩
    · rintro (hx | ⟨o', (rfl | ho'), hP⟩)
      · exact Or.inl (Or.inl hx)
      · exact Or.inl (Or.inr hP)
      · exact Or.inr ⟨o', ho', hP⟩

lemma nodup_cliqueFold (l : List SwarmNode) (nid : String) :
    ∀ init : List String, init.Nodup →
      (l.foldl (cliqueStep nid) init).Nodup := by
  induction l with
  | nil => intro init h; exact h
  | cons o rest ih =>
    intro init hinit
    rw [List.foldl_cons]
    apply ih
    unfold cliqueStep
    by_cases h : o.layer = NodeLayer.quantum ∧ o.id ≠ nid ∧ o.id ∉ init
    · rw [if_pos h, List.nodup_append]
      refine ⟨hinit, List.nodup_singleton _, ?_⟩
      intro a ha hmem
      rw [List.mem_singleton] at hmem
      subst hmem
      exact h.2.2 ha
    · rw [if_neg h]
      exact hinit

lemma mem_ringAppend (nodes : List SwarmNode) (i : ℕ) (ent : List String)
    (x : String) :
    x ∈ ringAppend nodes i ent ↔
      (x ∈ ent ∨
        (0 < i ∧ x = (nodes.map SwarmNode.id).getD (i - 1) "") ∨
        (i < nodes.length - 1 ∧
          x = (nodes.map SwarmNode.id).getD (i + 1) "")) := by
  unfold ringAppend
  by_cases h1 : 0 < i <;> by_cases h2 : i < nodes.length - 1 <;>
    simp only [h1, h2, if_pos, if_neg, if_true, if_false, List.mem_append,
      List.mem_singleton, true_and, false_and, or_false, not_false_iff] <;>
    tauto

lemma nodup_ringAppend_nil (nodes : List SwarmNode) (i : ℕ)
    (hids : (nodes.map SwarmNode.id).Nodup) (hi : i < nodes.length) :
    (ringAppend nodes i []).Nodup := by
  unfold ringAppend
  by_cases h1 : 0 < i <;> by_cases h2 : i < nodes.length - 1 <;>
    simp only [h1, h2, if_pos, if_neg, if_true, if_false, List.nil_append]
  · -- both neighbours exist: the two ids differ because positions differ
    have hm1 : i - 1 < (nodes.map SwarmNode.id).length := by
      simp only [List.length_map]; omega
    have hp1 : i + 1 < (nodes.map SwarmNode.id).length := by
      simp only [List.length_map]; omega
    rw [List.getD_eq_getElem _ _ hm1, List.getD_eq_getElem _ _ hp1]
    refine List.nodup_cons.mpr ⟨?_, List.nodup_singleton _⟩
    simp only [List.append_eq, List.nil_append, List.mem_singleton]
    intro heq
    have := (@List.Nodup.getElem_inj_iff _ _ hids _ hm1 _ hp1).mp heq
    omega
  · exact List.nodup_singleton _
  · exact List.nodup_singleton _
  · exact List.nodup_nil

lemma mem_entangleNode (nodes : List SwarmNode) (i : ℕ) (node : SwarmNode)
    (x : String) :
    x ∈ (entangleNode nodes i node).entanglement ↔
      (x ∈ node.entanglement ∨
        (0 < i ∧ x = (nodes.map SwarmNode.id).getD (i - 1) "") ∨
        (i < nodes.length - 1 ∧
          x = (nodes.map SwarmNode.id).getD (i + 1) "") ∨
        (node.layer = NodeLayer.quantum ∧
          ∃ o ∈ nodes,
            o.layer = NodeLayer.quantum ∧ o.id ≠ node.id ∧ o.id = x)) := by
  unfold entangleNode
  by_cases hq : node.layer = NodeLayer.quantum
  · simp only [hq, if_true, if_pos]
    rw [mem_cliqueFold, mem_ringAppend]
    tauto
  · simp only [hq, if_false, if_neg, not_false_iff]
    rw [mem_ringAppend]
    tauto

lemma length_build (nodes : List SwarmNode) :
    (build_entanglement nodes).length = nodes.length := by
  simp [build_entanglement]

lemma build_getD (nodes : List SwarmNode) (i : ℕ) (hi : i < nodes.length) :
    (build_entanglement nodes).getD i dummyNode =
      entangleNode nodes i (nodes.getD i dummyNode) := by
  have hb : i < (build_entanglement nodes).length := by
    rw [length_build]; exact hi
  have he : i < nodes.enum.length := by rw [List.enum_length]; exact hi
  rw [List.getD_eq_getElem _ _ hb, List.getD_eq_getElem _ _ hi]
  unfold build_entanglement
  rw [List.getElem_map, List.getElem_enum]

lemma ids_getD (nodes : List SwarmNode) (j : ℕ) (hj : j < nodes.length) :
    (nodes.map SwarmNode.id).getD j "" = (nodes.getD j dummyNode).id := by
  have hm : j < (nodes.map SwarmNode.id).length := by
    rw [List.length_map]; exact hj
  rw [List.getD_eq_getElem _ _ hm, List.getD_eq_getElem _ _ hj,
    List.getElem_map]

lemma mem_list_iff_getD (l : List SwarmNode) (a : SwarmNode) :
    a ∈ l ↔ ∃ j, j < l.length ∧ l.getD j dummyNode = a := by
  rw [List.mem_iff_getElem]
  constructor
  · rintro ⟨j, hj, rfl⟩
    exact ⟨j, hj, List.getD_eq_getElem _ _ hj⟩
  · rintro ⟨j, hj, h⟩
    exact ⟨j, hj, by rw [← List.getD_eq_getElem _ dummyNode hj, h]⟩

lemma mem_build (nodes : List SwarmNode) (i : ℕ) (hi : i < nodes.length)
    (x : String) :
    x ∈ ((build_entanglement nodes).getD i dummyNode).entanglement ↔
      (x ∈ (nodes.getD i dummyNode).entanglement ∨
        (0 < i ∧ x = (nodes.map SwarmNode.id).getD (i - 1) "") ∨
        (i < nodes.length - 1 ∧
          x = (nodes.map SwarmNode.id).getD (i + 1) "") ∨
        ((nodes.getD i dummyNode).layer = NodeLayer.quantum ∧
          ∃ o ∈ nodes,
            o.layer = NodeLayer.quantum ∧
              o.id ≠ (nodes.getD i dummyNode).id ∧ o.id = x)) := by
  rw [build_getD nodes i hi, mem_entangleNode]

lemma entangleNode_id (nodes : List SwarmNode) (i : ℕ) (node : SwarmNode) :
    (entangleNode nodes i node).id = node.id := rfl

lemma entangleNode_layer (nodes : List SwarmNode) (i : ℕ)
    (node : SwarmNode) : (entangleNode nodes i node).layer = node.layer := rfl

lemma build_getD_id (nodes : List SwarmNode) (i : ℕ)
    (hi : i < nodes.length) :
    ((build_entanglement nodes).getD i dummyNode).id =
      (nodes.getD i dummyNode).id := by
  rw [build_getD nodes i hi]; rfl

lemma build_getD_layer (nodes : List SwarmNode) (i : ℕ)
    (hi : i < nodes.length) :
    ((build_entanglement nodes).getD i dummyNode).layer =
      (nodes.getD i dummyNode).layer := by
  rw [build_getD nodes i hi]; rfl

lemma build_map_id (nodes : List SwarmNode) :
    (build_entanglement nodes).map SwarmNode.id =
      nodes.map SwarmNode.id := by
  unfold build_entanglement
  rw [List.map_map]
  have h1 : (SwarmNode.id ∘ fun p : ℕ × SwarmNode =>
      entangleNode nodes p.1 p.2) = (SwarmNode.id ∘ Prod.snd) := rfl
  rw [h1, ← List.map_map, List.enum_map_snd]

lemma clique_exists_index (nodes : List SwarmNode) (i : ℕ)
    (hi : i < nodes.length) (hids : (nodes.map SwarmNode.id).Nodup)
    (x : String) :
    (∃ o ∈ nodes, o.layer = NodeLayer.quantum ∧
        o.id ≠ (nodes.getD i dummyNode).id ∧ o.id = x) ↔
      (∃ j, j < nodes.length ∧ j ≠ i ∧
        (nodes.getD j dummyNode).layer = NodeLayer.quantum ∧
        (nodes.getD j dummyNode).id = x) := by
  constructor
  · rintro ⟨o, ho, hq, hne, rfl⟩
    rcases (mem_list_iff_getD nodes o).mp ho with ⟨j, hj, rfl⟩
    refine ⟨j, hj, ?_, hq, rfl⟩
    intro hji
    subst hji
    exact hne rfl
  · rintro ⟨j, hj, hne, hq, rfl⟩
    refine ⟨nodes.getD j dummyNode,
      (mem_list_iff_getD nodes _).mpr ⟨j, hj, rfl⟩, hq, ?_, rfl⟩
    intro heq
    have hj' : j < (nodes.map SwarmNode.id).length := by
      rw [List.length_map]; exact hj
    have hi' : i < (nodes.map SwarmNode.id).length := by
      rw [List.length_map]; exact hi
    have hmap : (nodes.map SwarmNode.id)[j] = (nodes.map SwarmNode.id)[i] := by
      rw [List.getElem_map, List.getElem_map,
        ← List.getD_eq_getElem nodes dummyNode hj,
        ← List.getD_eq_getElem nodes dummyNode hi]
      exact heq
    exact hne ((@List.Nodup.getElem_inj_iff _ _ hids _ hj' _ hi').mp hmap)

/-! ### C5: ring adjacency plus quantum clique -/

/-- C5: with unique identities and initially empty entanglement lists,
`_build_entanglement` gives every node exactly its ring neighbours
(predecessor when `i > 0`, successor when `i + 1 < n`) plus, for
quantum-layer nodes, the identities of all other quantum-layer nodes;
in particular every pair of distinct quantum-layer nodes is mutually
entangled. -/
theorem C5_entanglement_ring_and_clique (nodes : List SwarmNode)
    (hids : (nodes.map SwarmNode.id).Nodup)
    (hemp : ∀ n ∈ nodes, n.entanglement = []) :
    (∀ i, i < nodes.length → ∀ x : String,
      (x ∈ ((build_entanglement nodes).getD i dummyNode).entanglement ↔
        ((0 < i ∧ x = (nodes.getD (i - 1) dummyNode).id) ∨
          (i + 1 < nodes.length ∧ x = (nodes.getD (i + 1) dummyNode).id) ∨
          ((nodes.getD i dummyNode).layer = NodeLayer.quantum ∧
            ∃ j, j < nodes.length ∧ j ≠ i ∧
              (nodes.getD j dummyNode).layer = NodeLayer.quantum ∧
              (nodes.getD j dummyNode).id = x)))) ∧
    (∀ i j, i < nodes.length → j < nodes.length → i ≠ j →
      (nodes.getD i dummyNode).layer = NodeLayer.quantum →
      (nodes.getD j dummyNode).layer = NodeLayer.quantum →
      (nodes.getD j dummyNode).id ∈
          ((build_entanglement nodes).getD i dummyNode).entanglement ∧
        (nodes.getD i dummyNode).id ∈
          ((build_entanglement nodes).getD j dummyNode).entanglement) := by
  have hmem : ∀ i, i < nodes.length → ∀ x : String,
      (x ∈ ((build_entanglement nodes).getD i dummyNode).entanglement ↔
        ((0 < i ∧ x = (nodes.getD (i - 1) dummyNode).id) ∨
          (i + 1 < nodes.length ∧ x = (nodes.getD (i + 1) dummyNode).id) ∨
          ((nodes.getD i dummyNode).layer = NodeLayer.quantum ∧
            ∃ j, j < nodes.length ∧ j ≠ i ∧
              (nodes.getD j dummyNode).layer = NodeLayer.quantum ∧
              (nodes.getD j dummyNode).id = x))) := by
    intro i hi x
    rw [mem_build nodes i hi x]
    have hempi : (nodes.getD i dummyNode).entanglement = [] :=
      hemp _ ((mem_list_iff_getD nodes _).mpr ⟨i, hi, rfl⟩)
    rw [hempi, clique_exists_index nodes i hi hids x]
    have h1 : (0 < i ∧ x = (nodes.map SwarmNode.id).getD (i - 1) "") ↔
        (0 < i ∧ x = (nodes.getD (i - 1) dummyNode).id) :=
      and_congr_right fun _ => by
        rw [ids_getD nodes (i - 1) (by omega)]
    have h2 : (i < nodes.length - 1 ∧
          x = (nodes.map SwarmNode.id).getD (i + 1) "") ↔
        (i + 1 < nodes.length ∧ x = (nodes.getD (i + 1) dummyNode).id) := by
      constructor
      · rintro ⟨hp, rfl⟩
        have hp' : i + 1 < nodes.length := by omega
        exact ⟨hp', ids_getD nodes (i + 1) hp'⟩
      · rintro ⟨hp, rfl⟩
        exact ⟨by omega, (ids_getD nodes (i + 1) hp).symm⟩
    rw [h1, h2]
    simp only [List.not_mem_nil, false_or]
  refine ⟨hmem, ?_⟩
  intro i j hi hj hne hqi hqj
  constructor
  · exact (hmem i hi _).mpr (Or.inr (Or.inr
      ⟨hqi, j, hj, Ne.symm hne, hqj, rfl⟩))
  · exact (hmem j hj _).mpr (Or.inr (Or.inr
      ⟨hqj, i, hi, hne, hqi, rfl⟩))

/-- The specification's worked three-node example: A infrastructure,
B and C quantum, all weight 1. -/
def exampleMatrix : List SwarmNode :=
  [{ id := "A", name := "Alpha", layer := NodeLayer.infrastructure,
     weight := 1 },
   { id := "B", name := "Bravo", layer := NodeLayer.quantum, weight := 1 },
   { id := "C", name := "Charlie", layer := NodeLayer.quantum, weight := 1 }]

theorem C5_entanglement_ring_and_clique_witness :
    (exampleMatrix.map SwarmNode.id).Nodup ∧
    "C" ∈ ((build_entanglement exampleMatrix).getD 1 dummyNode).entanglement ∧
    "B" ∈ ((build_entanglement exampleMatrix).getD 2 dummyNode).entanglement := by
  have h := (C5_entanglement_ring_and_clique exampleMatrix (by decide)
    (by decide)).2 1 2 (by decide) (by decide) (by norm_num)
    (by decide) (by decide)
  exact ⟨by decide, h.1, h.2⟩

lemma exists_clique_build (nodes : List SwarmNode) (nid x : String) :
    (∃ o ∈ build_entanglement nodes,
        o.layer = NodeLayer.quantum ∧ o.id ≠ nid ∧ o.id = x) ↔
      (∃ o ∈ nodes,
        o.layer = NodeLayer.quantum ∧ o.id ≠ nid ∧ o.id = x) := by
  constructor
  · rintro ⟨o, ho, hq, hne, rfl⟩
    rcases (mem_list_iff_getD _ o).mp ho with ⟨j, hj, hoj⟩
    have hj' : j < nodes.length := by rw [length_build] at hj; exact hj
    refine ⟨nodes.getD j dummyNode,
      (mem_list_iff_getD nodes _).mpr ⟨j, hj', rfl⟩, ?_, ?_, ?_⟩
    · rw [← build_getD_layer nodes j hj', hoj]; exact hq
    · rw [← build_getD_id nodes j hj', hoj]; exact hne
    · rw [← build_getD_id nodes j hj', hoj]
  · rintro ⟨o, ho, hq, hne, rfl⟩
    rcases (mem_list_iff_getD _ o).mp ho with ⟨j, hj, hoj⟩
    have hj' : j < (build_entanglement nodes).length := by
      rw [length_build]; exact hj
    refine ⟨(build_entanglement nodes).getD j dummyNode,
      (mem_list_iff_getD _ _).mpr ⟨j, hj', rfl⟩, ?_, ?_, ?_⟩
    · rw [build_getD_layer nodes j hj, hoj]; exact hq
    · rw [build_getD_id nodes j hj, hoj]; exact hne
    · rw [build_getD_id nodes j hj, hoj]

/-! ### C6: idempotence on adjacency sets, determinism, deduplication -/

/-- C6: running `_build_entanglement` again over an already-built matrix
leaves every node's entanglement unchanged as a set (the construction is
deterministic and set-idempotent); and after one construction from a
matrix with unique identities and empty entanglement lists, no node's
entanglement list contains a duplicate identity. -/
theorem C6_entanglement_idempotent_dedup (nodes : List SwarmNode) :
    (∀ i, i < nodes.length → ∀ x : String,
      (x ∈ ((build_entanglement
              (build_entanglement nodes)).getD i dummyNode).entanglement ↔
        x ∈ ((build_entanglement nodes).getD i dummyNode).entanglement)) ∧
    ((nodes.map SwarmNode.id).Nodup →
      (∀ n ∈ nodes, n.entanglement = []) →
      ∀ i, i < nodes.length →
        ((build_entanglement nodes).getD i dummyNode).entanglement.Nodup) := by
  constructor
  · intro i hi x
    have hib : i < (build_entanglement nodes).length := by
      rw [length_build]; exact hi
    rw [mem_build (build_entanglement nodes) i hib x]
    rw [build_map_id, length_build, build_getD_layer nodes i hi,
      build_getD_id nodes i hi, exists_clique_build]
    constructor
    · rintro (hx | hr1 | hr2 | hcl)
      · exact hx
      · exact (mem_build nodes i hi x).mpr (Or.inr (Or.inl hr1))
      · exact (mem_build nodes i hi x).mpr (Or.inr (Or.inr (Or.inl hr2)))
      · exact (mem_build nodes i hi x).mpr (Or.inr (Or.inr (Or.inr hcl)))
    · exact Or.inl
  · intro hids hemp i hi
    rw [build_getD nodes i hi]
    have he : (entangleNode nodes i (nodes.getD i dummyNode)).entanglement =
        (if (nodes.getD i dummyNode).layer = NodeLayer.quantum
         then nodes.foldl (cliqueStep (nodes.getD i dummyNode).id)
            (ringAppend nodes i (nodes.getD i dummyNode).entanglement)
         else ringAppend nodes i
            (nodes.getD i dummyNode).entanglement) := rfl
    have hempi : (nodes.getD i dummyNode).entanglement = [] :=
      hemp _ ((mem_list_iff_getD nodes _).mpr ⟨i, hi, rfl⟩)
    rw [he, hempi]
    by_cases hq : (nodes.getD i dummyNode).layer = NodeLayer.quantum
    · rw [if_pos hq]
      exact nodup_cliqueFold nodes _ _ (nodup_ringAppend_nil nodes i hids hi)
    · rw [if_neg hq]
      exact nodup_ringAppend_nil nodes i hids hi

theorem C6_entanglement_idempotent_dedup_witness :
    ("B" ∈ ((build_entanglement
        (build_entanglement exampleMatrix)).getD 0 dummyNode).entanglement ↔
      "B" ∈ ((build_entanglement exampleMatrix).getD 0
        dummyNode).entanglement) ∧
    ((build_entanglement exampleMatrix).getD 1 dummyNode).entanglement.Nodup :=
  ⟨(C6_entanglement_idempotent_dedup exampleMatrix).1 0 (by decide) "B",
    (C6_entanglement_idempotent_dedup exampleMatrix).2 (by decide) (by decide)
      1 (by decide)⟩

/-! ### C8: full_flash_sync stage ordering and coherence monotonicity -/

lemma syncNode_weight (m : ℚ) (n : SwarmNode) :
    (syncNode m n).weight = n.weight := rfl

lemma phi_weight_syncNode (m : ℚ) (n : SwarmNode) :
    phi_weight (syncNode m n) = phi_weight n := rfl

lemma syncNode_coherence_strict (m : ℚ) (hm : 0 < m) (n : SwarmNode)
    (h0 : 0 < n.coherence) (h1 : n.coherence < 1) :
    n.coherence < (syncNode m n).coherence := by
  unfold syncNode
  simp only
  apply lt_min h1
  nlinarith

lemma list_sum_lt_pointwise (l : List SwarmNode) (f g : SwarmNode → ℚ)
    (hle : ∀ x ∈ l, f x ≤ g x) (hlt : ∃ x ∈ l, f x < g x) :
    (l.map f).sum < (l.map g).sum := by
  induction l with
  | nil => simp at hlt
  | cons a l ih =>
    simp only [List.map_cons, List.sum_cons]
    rcases hlt with ⟨x, hx, hxlt⟩
    rcases List.mem_cons.mp hx with rfl | hxl
    · exact add_lt_add_of_lt_of_le hxlt
        (List.sum_le_sum (fun y hy => hle y (List.mem_cons_of_mem _ hy)))
    · exact add_lt_add_of_le_of_lt (hle a (List.mem_cons_self _ _))
        (ih (fun y hy => hle y (List.mem_cons_of_mem _ hy)) ⟨x, hxl, hxlt⟩)

lemma denom_sync (m : ℚ) (ns : List SwarmNode) :
    ((ns.map (syncNode m)).map (fun n => phi_weight n)).sum =
      (ns.map (fun n => phi_weight n)).sum := by
  rw [List.map_map]
  exact congrArg List.sum (List.map_congr_left (fun n _ => rfl))

lemma num_sync (m : ℚ) (ns : List SwarmNode) :
    ((ns.map (syncNode m)).map (fun n => n.coherence * phi_weight n)).sum =
      (ns.map (fun n => (syncNode m n).coherence * phi_weight n)).sum := by
  rw [List.map_map]
  exact congrArg List.sum (List.map_congr_left (fun n _ => rfl))

lemma phi_weight_nonneg {n : SwarmNode} (hw : 0 ≤ n.weight) :
    0 ≤ phi_weight n := by
  unfold phi_weight
  have := PHI_pos
  positivity

lemma phi_weight_pos {n : SwarmNode} (hw : 0 < n.weight) :
    0 < phi_weight n := by
  unfold phi_weight
  have := PHI_pos
  positivity

lemma calculate_coherence_mono (m : ℚ) (hm : 0 < m) (ns : List SwarmNode)
    (hw : ∀ n ∈ ns, 0 ≤ n.weight)
    (hc : ∀ n ∈ ns, 0 ≤ n.coherence ∧ n.coherence ≤ 1) :
    calculate_coherence ns ≤ calculate_coherence (ns.map (syncNode m)) := by
  unfold calculate_coherence
  rw [denom_sync, num_sync]
  by_cases hD : (ns.map (fun n => phi_weight n)).sum > 0
  · rw [if_pos hD, if_pos hD]
    rw [div_le_div_iff_of_pos_right hD]
    apply List.sum_le_sum
    intro n hn
    exact mul_le_mul_of_nonneg_right
      (syncNode_coherence_mono m hm n (hc n hn).1 (hc n hn).2)
      (phi_weight_nonneg (hw n hn))
  · rw [if_neg hD, if_neg hD]

lemma calculate_coherence_strict (m : ℚ) (hm : 0 < m) (ns : List SwarmNode)
    (hw : ∀ n ∈ ns, 0 ≤ n.weight)
    (hc1 : ∀ n ∈ ns, n.coherence ≤ 1)
    (hD : 0 < (ns.map (fun n => phi_weight n)).sum)
    (hpos : ∀ n ∈ ns, 0 < n.weight → 0 < n.coherence) :
    calculate_coherence ns < calculate_coherence (ns.map (syncNode m)) ∨
      calculate_coherence (ns.map (syncNode m)) = 1 := by
  by_cases hall : ∀ n ∈ ns, 0 < n.weight → n.coherence = 1
  · right
    unfold calculate_coherence
    rw [denom_sync, num_sync, if_pos hD]
    have hnum : (ns.map
        (fun n => (syncNode m n).coherence * phi_weight n)).sum =
        (ns.map (fun n => phi_weight n)).sum := by
      apply congrArg List.sum
      apply List.map_congr_left
      intro n hn
      by_cases hw0 : 0 < n.weight
      · have hc1' : (syncNode m n).coherence = 1 := by
          unfold syncNode
          simp only
          rw [hall n hn hw0, one_mul]
          exact min_eq_left (by nlinarith)
        rw [hc1', one_mul]
      · have hz : n.weight = 0 := le_antisymm (not_lt.mp hw0) (hw n hn)
        unfold phi_weight
        rw [hz, zero_mul, mul_zero]
    rw [hnum, div_self (ne_of_gt hD)]
  · left
    push_neg at hall
    rcases hall with ⟨n₀, hn₀, hw₀, hcne⟩
    have hc₀lt : n₀.coherence < 1 := lt_of_le_of_ne (hc1 n₀ hn₀) hcne
    have hc₀pos : 0 < n₀.coherence := hpos n₀ hn₀ hw₀
    unfold calculate_coherence
    rw [denom_sync, num_sync, if_pos hD, if_pos hD]
    rw [div_lt_div_iff_of_pos_right hD]
    apply list_sum_lt_pointwise
    · intro n hn
      by_cases hw0 : 0 < n.weight
      · exact mul_le_mul_of_nonneg_right
          (syncNode_coherence_mono m hm n (le_of_lt (hpos n hn hw0))
            (hc1 n hn))
          (phi_weight_nonneg (hw n hn))
      · have hz : n.weight = 0 := le_antisymm (not_lt.mp hw0) (hw n hn)
        unfold phi_weight
        rw [hz, zero_mul, mul_zero, mul_zero]
    · exact ⟨n₀, hn₀,
        mul_lt_mul_of_pos_right
          (syncNode_coherence_strict m hm n₀ hc₀pos hc₀lt)
          (phi_weight_pos hw₀)⟩

lemma bounds_map_sync (m : ℚ) (hm : 0 < m) (ns : List SwarmNode)
    (hc : ∀ n ∈ ns, 0 ≤ n.coherence ∧ n.coherence ≤ 1) :
    ∀ n ∈ ns.map (syncNode m), 0 ≤ n.coherence ∧ n.coherence ≤ 1 := by
  intro n hn
  rcases List.mem_map.mp hn with ⟨a, ha, rfl⟩
  exact ⟨syncNode_coherence_nonneg m hm a (hc a ha).1,
    syncNode_coherence_le_one m a⟩

lemma weights_map_sync (m : ℚ) (ns : List SwarmNode)
    (hw : ∀ n ∈ ns, 0 ≤ n.weight) :
    ∀ n ∈ ns.map (syncNode m), 0 ≤ n.weight := by
  intro n hn
  rcases List.mem_map.mp hn with ⟨a, ha, rfl⟩
  exact hw a ha

lemma cpos_map_sync (m : ℚ) (hm : 0 < m) (ns : List SwarmNode)
    (hpos : ∀ n ∈ ns, 0 < n.weight → 0 < n.coherence) :
    ∀ n ∈ ns.map (syncNode m), 0 < n.weight → 0 < n.coherence := by
  intro n hn
  rcases List.mem_map.mp hn with ⟨a, ha, rfl⟩
  intro hwa
  exact syncNode_coherence_pos m hm a (hpos a ha hwa)

lemma full_flash_sync_snd_eq (nodes : List SwarmNode) :
    (full_flash_sync nodes).1.map Prod.snd =
      [calculate_coherence (nodes.map (syncNode SyncScale.micro.multiplier)),
       calculate_coherence
         ((nodes.map (syncNode SyncScale.micro.multiplier)).map
           (syncNode SyncScale.meso.multiplier)),
       calculate_coherence
         (((nodes.map (syncNode SyncScale.micro.multiplier)).map
             (syncNode SyncScale.meso.multiplier)).map
           (syncNode SyncScale.macroScale.multiplier)),
       calculate_coherence
         ((((nodes.map (syncNode SyncScale.micro.multiplier)).map
               (syncNode SyncScale.meso.multiplier)).map
             (syncNode SyncScale.macroScale.multiplier)).map
           (syncNode SyncScale.metaScale.multiplier))] := rfl

/-- Amended C8: `full_flash_sync` runs the stages in the fixed order
micro, meso, macro, meta; for non-negative weights and coherences in
`[0, 1]` the recorded per-stage coherence values never decrease; and
when additionally the total derived weight is positive and every
positive-weight node has positive coherence, each stage is either a
strict increase or ends exactly at the `1.0` ceiling. -/
theorem C8_full_flash_sync_monotone (nodes : List SwarmNode)
    (hw : ∀ n ∈ nodes, 0 ≤ n.weight)
    (hc : ∀ n ∈ nodes, 0 ≤ n.coherence ∧ n.coherence ≤ 1) :
    (full_flash_sync nodes).1.map Prod.fst =
      ["micro", "meso", "macro", "meta"] ∧
    List.Chain' (· ≤ ·) ((full_flash_sync nodes).1.map Prod.snd) ∧
    (0 < (nodes.map (fun n => phi_weight n)).sum →
      (∀ n ∈ nodes, 0 < n.weight → 0 < n.coherence) →
      List.Chain' (fun a b => a < b ∨ b = 1)
        ((full_flash_sync nodes).1.map Prod.snd)) := by
  have hm1 := multiplier_pos SyncScale.micro
  have hm2 := multiplier_pos SyncScale.meso
  have hm3 := multiplier_pos SyncScale.macroScale
  have hm4 := multiplier_pos SyncScale.metaScale
  have hb1 := bounds_map_sync _ hm1 nodes hc
  have hb2 := bounds_map_sync _ hm2 _ hb1
  have hb3 := bounds_map_sync _ hm3 _ hb2
  have hw1 := weights_map_sync SyncScale.micro.multiplier nodes hw
  have hw2 := weights_map_sync SyncScale.meso.multiplier _ hw1
  have hw3 := weights_map_sync SyncScale.macroScale.multiplier _ hw2
  refine ⟨rfl, ?_, ?_⟩
  · rw [full_flash_sync_snd_eq]
    simp only [List.chain'_cons, List.chain'_singleton, and_true]
    exact ⟨calculate_coherence_mono _ hm2 _ hw1 hb1,
      calculate_coherence_mono _ hm3 _ hw2 hb2,
      calculate_coherence_mono _ hm4 _ hw3 hb3⟩
  · intro hD hpos
    have hD1 : 0 < ((nodes.map (syncNode SyncScale.micro.multiplier)).map
        (fun n => phi_weight n)).sum := by
      rw [denom_sync]; exact hD
    have hD2 : 0 < (((nodes.map (syncNode SyncScale.micro.multiplier)).map
        (syncNode SyncScale.meso.multiplier)).map
          (fun n => phi_weight n)).sum := by
      rw [denom_sync, denom_sync]; exact hD
    have hD3 : 0 < ((((nodes.map (syncNode SyncScale.micro.multiplier)).map
        (syncNode SyncScale.meso.multiplier)).map
          (syncNode SyncScale.macroScale.multiplier)).map
            (fun n => phi_weight n)).sum := by
      rw [denom_sync, denom_sync, denom_sync]; exact hD
    have hp1 := cpos_map_sync _ hm1 nodes hpos
    have hp2 := cpos_map_sync _ hm2 _ hp1
    have hp3 := cpos_map_sync _ hm3 _ hp2
    rw [full_flash_sync_snd_eq]
    simp only [List.chain'_cons, List.chain'_singleton, and_true]
    exact ⟨calculate_coherence_strict _ hm2 _ hw1
        (fun n hn => (hb1 n hn).2) hD1 hp1,
      calculate_coherence_strict _ hm3 _ hw2
        (fun n hn => (hb2 n hn).2) hD2 hp2,
      calculate_coherence_strict _ hm4 _ hw3
        (fun n hn => (hb3 n hn).2) hD3 hp3⟩

/-- Two equal-weight nodes, the first at coherence 1 and the second at
coherence 0: every stage of `full_flash_sync` records swarm coherence
exactly 1/2, which neither strictly increases nor sits at the ceiling,
although this matrix starts with every coherence 1.0 except one below. -/
def cm8 : List SwarmNode :=
  [{ id := "A", name := "Alpha", layer := NodeLayer.infrastructure,
     weight := 1 },
   { id := "B", name := "Beta", layer := NodeLayer.infrastructure,
     weight := 1, coherence := 0 }]

theorem C8_full_flash_sync_monotone_counterexample :
    (cm8.getD 0 dummyNode).coherence = 1 ∧
    (cm8.getD 1 dummyNode).coherence = 0 ∧
    (full_flash_sync cm8).1.map Prod.snd = [1/2, 1/2, 1/2, 1/2] ∧
    ¬ ((1 : ℚ)/2 < 1/2 ∨ (1 : ℚ)/2 = 1) := by
  refine ⟨rfl, rfl, ?_, by norm_num⟩
  rw [full_flash_sync_snd_eq]
  norm_num [cm8, syncNode, calculate_coherence, phi_weight,
    SyncScale.multiplier, PHI, min_def]

/-- One-node matrix with weight 1 and coherence 1/2 used to instantiate
C8. -/
def wm8 : List SwarmNode :=
  [{ id := "A", name := "Alpha", layer := NodeLayer.infrastructure,
     weight := 1, coherence := 1 / 2 }]

theorem C8_full_flash_sync_monotone_witness :
    0 < (wm8.map (fun n => phi_weight n)).sum ∧
    List.Chain' (· ≤ ·) ((full_flash_sync wm8).1.map Prod.snd) ∧
    List.Chain' (fun a b => a < b ∨ b = 1)
      ((full_flash_sync wm8).1.map Prod.snd) := by
  have hw : ∀ n ∈ wm8, 0 ≤ n.weight := by
    intro n hn; simp only [wm8, List.mem_singleton] at hn; subst hn; norm_num
  have hc : ∀ n ∈ wm8, 0 ≤ n.coherence ∧ n.coherence ≤ 1 := by
    intro n hn; simp only [wm8, List.mem_singleton] at hn; subst hn; norm_num
  have hD : 0 < (wm8.map (fun n => phi_weight n)).sum := by
    norm_num [wm8, phi_weight, PHI]
  have hpos : ∀ n ∈ wm8, 0 < n.weight → 0 < n.coherence := by
    intro n hn; simp only [wm8, List.mem_singleton] at hn; subst hn
    intro _; norm_num
  have h := C8_full_flash_sync_monotone wm8 hw hc
  exact ⟨hD, h.2.1, h.2.2 hD hpos⟩

/-! ### C7: behaviour of phi_weighted on non-finite floats

IEEE-754 double values including the specials, as far as the operations
of `phi_weighted` can meet them: exact rationals for finite doubles
(overflow to infinity cannot occur for the magnitudes involved), plus
NaN and the two infinities with the IEEE propagation rules. -/

inductive EFloat where
  | finite : ℚ → EFloat
  | nan : EFloat
  | inf : EFloat
  | ninf : EFloat
deriving DecidableEq, Repr

/-- IEEE addition on `EFloat`. -/
def EFloat.add : EFloat → EFloat → EFloat
  | nan, _ => nan
  | _, nan => nan
  | inf, ninf => nan
  | ninf, inf => nan
  | inf, _ => inf
  | _, inf => inf
  | ninf, _ => ninf
  | _, ninf => ninf
  | finite a, finite b => finite (a + b)

/-- IEEE multiplication on `EFloat`. -/
def EFloat.mul : EFloat → EFloat → EFloat
  | nan, _ => nan
  | _, nan => nan
  | finite a, finite b => finite (a * b)
  | inf, finite b => if b = 0 then nan else if 0 < b then inf else ninf
  | finite a, inf => if a = 0 then nan else if 0 < a then inf else ninf
  | ninf, finite b => if b = 0 then nan else if 0 < b then ninf else inf
  | finite a, ninf => if a = 0 then nan else if 0 < a then ninf else inf
  | inf, inf => inf
  | inf, ninf => ninf
  | ninf, inf => ninf
  | ninf, ninf => inf

/-- IEEE division on `EFloat` (signed zero ignored: Python reaches a
division here only with a positive divisor). -/
def EFloat.div : EFloat → EFloat → EFloat
  | nan, _ => nan
  | _, nan => nan
  | finite a, finite b =>
      if b = 0 then (if a = 0 then nan else if 0 < a then inf else ninf)
      else finite (a / b)
  | inf, finite b => if 0 ≤ b then inf else ninf
  | ninf, finite b => if 0 ≤ b then ninf else inf
  | finite _, inf => finite 0
  | finite _, ninf => finite 0
  | inf, inf => nan
  | inf, ninf => nan
  | ninf, inf => nan
  | ninf, ninf => nan

/-- `PHI ** i` on `EFloat` (repeated IEEE multiplication). -/
def EFloat.pow (b : EFloat) : ℕ → EFloat
  | 0 => finite 1
  | n + 1 => EFloat.mul b (EFloat.pow b n)

/-- The IEEE comparison `x > 0` (false on NaN). -/
def EFloat.gtZero : EFloat → Bool
  | finite q => decide (0 < q)
  | inf => true
  | _ => false

/-- The `PHI` constant as a double. -/
def PHIE : EFloat := EFloat.finite PHI

/-- `ConsensusEngine.phi_weighted` evaluated in full IEEE double
arithmetic (`sum` is Python's left fold starting at 0). -/
def phi_weightedE (values : List EFloat) : EFloat :=
  let total := (values.enum.map
    (fun p => EFloat.mul p.2 (EFloat.pow PHIE p.1))).foldl
      EFloat.add (EFloat.finite 0)
  let weights := ((List.range values.length).map
    (fun i => EFloat.pow PHIE i)).foldl EFloat.add (EFloat.finite 0)
  if weights.gtZero then EFloat.div total weights else EFloat.finite 0

lemma eadd_nan_left (x : EFloat) : EFloat.add EFloat.nan x = EFloat.nan :=
  by cases x <;> rfl

lemma emul_nan_left (x : EFloat) : EFloat.mul EFloat.nan x = EFloat.nan :=
  by cases x <;> rfl

lemma eadd_nan_right (x : EFloat) : EFloat.add x EFloat.nan = EFloat.nan :=
  by cases x <;> rfl

lemma foldl_eadd_nan (l : List EFloat) :
    l.foldl EFloat.add EFloat.nan = EFloat.nan := by
  induction l with
  | nil => rfl
  | cons a l ih =>
    rw [List.foldl_cons, eadd_nan_left]
    exact ih

lemma foldl_eadd_mem_nan (l : List EFloat) (h : EFloat.nan ∈ l) :
    ∀ init : EFloat, l.foldl EFloat.add init = EFloat.nan := by
  induction l with
  | nil => simp at h
  | cons a l ih =>
    intro init
    rcases List.mem_cons.mp h with rfl | hl
    · rw [List.foldl_cons, eadd_nan_right]
      exact foldl_eadd_nan l
    · rw [List.foldl_cons]
      exact ih hl _

lemma pow_PHIE (n : ℕ) : EFloat.pow PHIE n = EFloat.finite (PHI ^ n) := by
  induction n with
  | zero => exact congrArg EFloat.finite (pow_zero PHI).symm
  | succ n ih =>
    have h : EFloat.pow PHIE (n + 1) =
        EFloat.mul PHIE (EFloat.pow PHIE n) := rfl
    rw [h, ih]
    show EFloat.finite (PHI * PHI ^ n) = EFloat.finite (PHI ^ (n + 1))
    rw [pow_succ]
    exact congrArg EFloat.finite (mul_comm PHI (PHI ^ n))

lemma foldl_eadd_finites (f : ℕ → ℚ) (l : List ℕ) :
    ∀ c : ℚ,
      (l.map (fun i => EFloat.finite (f i))).foldl EFloat.add
          (EFloat.finite c) =
        EFloat.finite (c + (l.map f).sum) := by
  induction l with
  | nil =>
    intro c
    show EFloat.finite c = EFloat.finite (c + ([] : List ℚ).sum)
    rw [List.sum_nil, add_zero]
  | cons a l ih =>
    intro c
    rw [List.map_cons, List.foldl_cons]
    have h : EFloat.add (EFloat.finite c) (EFloat.finite (f a)) =
        EFloat.finite (c + f a) := rfl
    rw [h, ih, List.map_cons, List.sum_cons, add_assoc]

lemma range_pow_sum_pos (n : ℕ) (h : 0 < n) :
    0 < ((List.range n).map (fun i => PHI ^ i)).sum := by
  apply List.sum_pos
  · intro x hx
    rcases List.mem_map.mp hx with ⟨i, _, rfl⟩
    exact pow_pos PHI_pos i
  · intro hnil
    rw [List.map_eq_nil_iff, List.range_eq_nil] at hnil
    omega

lemma nan_mem_enumFrom_map (values : List EFloat)
    (h : EFloat.nan ∈ values) :
    ∀ s : ℕ, EFloat.nan ∈ (values.enumFrom s).map
      (fun p => EFloat.mul p.2 (EFloat.pow PHIE p.1)) := by
  induction values with
  | nil => simp at h
  | cons a l ih =>
    intro s
    rcases List.mem_cons.mp h with rfl | hl
    · exact List.mem_cons.mpr (Or.inl (emul_nan_left _).symm)
    · exact List.mem_cons.mpr (Or.inr (ih hl (s + 1)))

/-- C7: `phi_weighted` performs no finiteness validation — a NaN score
anywhere in the input propagates into the returned aggregate
(the result is NaN, not an error report), contradicting the
DomainError handling the specification requires. -/
theorem C7_phi_weighted_nan_propagates (values : List EFloat)
    (h : EFloat.nan ∈ values) :
    phi_weightedE values = EFloat.nan := by
  have hne : values ≠ [] := by
    intro heq
    rw [heq] at h
    simp at h
  have hlen : 0 < values.length := List.length_pos.mpr hne
  unfold phi_weightedE
  have hmaps : (List.range values.length).map (fun i => EFloat.pow PHIE i) =
      (List.range values.length).map (fun i => EFloat.finite (PHI ^ i)) :=
    List.map_congr_left (fun i _ => pow_PHIE i)
  rw [hmaps, foldl_eadd_finites (fun i => PHI ^ i) _ 0]
  have htot : (values.enum.map
      (fun p => EFloat.mul p.2 (EFloat.pow PHIE p.1))).foldl
        EFloat.add (EFloat.finite 0) = EFloat.nan :=
    foldl_eadd_mem_nan _ (nan_mem_enumFrom_map values h 0) _
  rw [htot]
  have hpos : 0 < 0 + ((List.range values.length).map
      (fun i => PHI ^ i)).sum := by
    rw [zero_add]
    exact range_pow_sum_pos values.length hlen
  have hgt : (EFloat.finite (0 + ((List.range values.length).map
      (fun i => PHI ^ i)).sum)).gtZero = true := decide_eq_true hpos
  rw [if_pos hgt]
  rfl

theorem C7_phi_weighted_nan_propagates_witness :
    EFloat.nan ∈ [EFloat.nan] ∧
    phi_weightedE [EFloat.nan] = EFloat.nan :=
  ⟨List.mem_singleton.mpr rfl,
    C7_phi_weighted_nan_propagates [EFloat.nan]
      (List.mem_singleton.mpr rfl)⟩

end Epoch1
